import Mathlib

/-!
# Verification of the endcord terminal image renderer

Shallow embedding of `src/endcord_cython/media.pyx`: the two pure encoders
`img_to_term` (glyph-density) and `img_to_term_block` (half-block) that turn a
quantized pixel grid (and, for the first, a parallel luminance grid) into text
with embedded 256-color terminal escape sequences.

Modelling conventions:
* The caller-supplied pixel / luminance buffers (`img.load()` results, indexed
  `pixels[x, y]`) are total functions `Nat → Nat → Nat`.  Per the data model the
  pixel values are palette indices in `[0,239]` and luminances in `[0,255]`;
  both are caller-trusted, so nonnegative integers (`Nat`) model them.
* All geometry is `Nat`.  The claims we check only quantify over valid geometry
  (`img ≤ screen`), where C/Python integer arithmetic agrees with `Nat`
  subtraction and division.
* Each output line is kept as the list of string fragments the source appends
  (`line_parts`), abstracted into tokens: a foreground escape, a background
  escape, the reset escape, or visible text.  `renderTok` maps each token to
  exactly the characters the source appends for it, and a line's final string
  is the `"".join` of its rendered tokens, as in the source.
* Python list indexing of `ascii_palette` is fallible (an out-of-range index
  does not yield a glyph), so the glyph lookup is `List.get?` and the
  glyph-density encoder returns `Option`; `none` models the failing call.
  The ramp holds character glyphs (`List Char`), per the data model.
-/

/-- A fragment of an output line.  `fg c` / `bg c` / `reset` stand for the
escape sequences the source emits, `text s` for visible characters
(glyphs and padding spaces). -/
inductive Tok where
  | fg (c : Nat)
  | bg (c : Nat)
  | reset
  | text (s : String)
  deriving DecidableEq, Repr

/-- `ESC` of the source: the single control character `\x1b`. -/
def escChar : String := "\x1b"

/-- The characters a token contributes to the joined line, exactly as the
source appends them: `ESC [38;5; <code> m` for a foreground escape,
`ESC [48;5; <code> m` for a background escape, `ESC [0m` for reset. -/
def renderTok : Tok → String
  | Tok.fg c => escChar ++ "[38;5;" ++ toString c ++ "m"
  | Tok.bg c => escChar ++ "[48;5;" ++ toString c ++ "m"
  | Tok.reset => escChar ++ "[0m"
  | Tok.text s => s

/-- A line's final string: `"".join(line_parts)`. -/
def renderLine (l : List Tok) : String :=
  String.join (l.map renderTok)

/-- `" " * n` of Python. -/
def spaces (n : Nat) : String :=
  String.mk (List.replicate n ' ')

/-- Visible characters contributed by a token (escape sequences stripped). -/
def visLen : Tok → Nat
  | Tok.text s => s.length
  | _ => 0

/-- Visible width of a line: its length once escape sequences are stripped. -/
def visibleLen (l : List Tok) : Nat :=
  (l.map visLen).sum

/-- The ramp index the source computes for one pixel:
`(gray_val * ascii_palette_len) // 255`.  The divisor is the constant `255`. -/
def rampIndex (gray_val len : Nat) : Nat :=
  gray_val * len / 255

/-- A padding row: `bg + " " * screen_width + RESET`. -/
def padRow (bg_color screen_width : Nat) : List Tok :=
  [Tok.bg bg_color, Tok.text (spaces screen_width), Tok.reset]

/-- The inner pixel loop of `img_to_term` over the remaining columns `xs`
of row `y`, with `cur` the `current_fg` tracker (`none` is the `-1`
sentinel: emitted colors are ≥ 16, so `-1` matches no color).  For each
column the source reads `gray_val` and `color = pixels[x, y] + 16`, emits a
foreground escape iff `color != current_fg`, and then appends
`ascii_palette[(gray_val * ascii_palette_len) // 255]`; an out-of-range
ramp access fails the whole call (`none`). -/
def termScan (pixels pixels_gray : Nat → Nat → Nat) (ascii_palette : List Char)
    (ascii_palette_len : Nat) (y : Nat) :
    List Nat → Option Nat → Option (List Tok)
  | [], _ => some []
  | x :: xs, cur =>
    let gray_val := pixels_gray x y
    let color := pixels x y + 16
    match ascii_palette.get? (rampIndex gray_val ascii_palette_len) with
    | none => none
    | some glyph =>
      match termScan pixels pixels_gray ascii_palette ascii_palette_len y xs (some color) with
      | none => none
      | some rest =>
        if some color = cur then
          some (Tok.text (String.mk [glyph]) :: rest)
        else
          some (Tok.fg color :: Tok.text (String.mk [glyph]) :: rest)

/-- One content row of `img_to_term`: left padding (only when
`padding_w > 0`), the pixel scan started with the unset tracker, right
padding (only when `padding_w + img_width < screen_width`), and the
trailing reset. -/
def termContentLine (pixels pixels_gray : Nat → Nat → Nat) (bg_color : Nat)
    (ascii_palette : List Char) (ascii_palette_len : Nat)
    (screen_width img_width padding_w y : Nat) : Option (List Tok) :=
  match termScan pixels pixels_gray ascii_palette ascii_palette_len y
      (List.range img_width) none with
  | none => none
  | some mid =>
    let leftPad : List Tok :=
      if 0 < padding_w then [Tok.bg bg_color, Tok.text (spaces padding_w)] else []
    let visible_len := padding_w + img_width
    let rightPad : List Tok :=
      if visible_len < screen_width then
        [Tok.bg bg_color, Tok.text (spaces (screen_width - visible_len))]
      else []
    some (leftPad ++ mid ++ rightPad ++ [Tok.reset])

/-- Collect the content rows; any failing row fails the call, as the
exception would in the source. -/
def mapOption (f : Nat → Option (List Tok)) : List Nat → Option (List (List Tok))
  | [] => some []
  | y :: ys =>
    match f y with
    | none => none
    | some l =>
      match mapOption f ys with
      | none => none
      | some ls => some (l :: ls)

/-- The output lines of `img_to_term`: `padding_h = (screen_height - img_height) // 2`
top padding rows, one content row per `y in range(img_height)`, then bottom
padding rows appended `while len(out_lines) < screen_height`. -/
def img_to_term_lines (pixels pixels_gray : Nat → Nat → Nat) (bg_color : Nat)
    (ascii_palette : List Char) (ascii_palette_len : Nat)
    (screen_width screen_height img_width img_height : Nat) :
    Option (List (List Tok)) :=
  let padding_h := (screen_height - img_height) / 2
  let padding_w := (screen_width - img_width) / 2
  let top := List.replicate padding_h (padRow bg_color screen_width)
  match mapOption
      (termContentLine pixels pixels_gray bg_color ascii_palette
        ascii_palette_len screen_width img_width padding_w)
      (List.range img_height) with
  | none => none
  | some content =>
    let out0 := top ++ content
    some (out0 ++
      List.replicate (screen_height - out0.length) (padRow bg_color screen_width))

/-- `img_to_term`: the returned text, `"\n".join(out_lines)`. -/
def img_to_term (pixels pixels_gray : Nat → Nat → Nat) (bg_color : Nat)
    (ascii_palette : List Char) (ascii_palette_len : Nat)
    (screen_width screen_height img_width img_height : Nat) : Option String :=
  (img_to_term_lines pixels pixels_gray bg_color ascii_palette ascii_palette_len
      screen_width screen_height img_width img_height).map
    (fun ls => String.intercalate "\n" (ls.map renderLine))

/-- Python's `range(0, stop, 2)` (for the signed `stop` of the source):
`[0, 2, 4, …]` while below `stop`; empty when `stop ≤ 0`.  The element count
is `⌈stop/2⌉ = (stop + 1) / 2` (Euclidean division; `0` for `stop ≤ 0`). -/
def rangeStep2 (stop : Int) : List Nat :=
  (List.range ((stop + 1) / 2).toNat).map (· * 2)

/-- The inner pixel loop of `img_to_term_block` over the remaining columns
`xs` of the source-row pair `(y, y+1)`, with `cfg`/`cbg` the `current_fg` /
`current_bg` trackers (`none` is the `-1` sentinel).  For each column the
source reads `top_color = pixels[x, y] + 16` and
`bot_color = pixels[x, y + 1] + 16`, emits a foreground escape iff
`top_color != current_fg`, a background escape iff `bot_color != current_bg`,
then appends the upper-half-block glyph `"▀"`. -/
def blockScan (pixels : Nat → Nat → Nat) (y : Nat) :
    List Nat → Option Nat → Option Nat → List Tok
  | [], _, _ => []
  | x :: xs, cfg, cbg =>
    let top_color := pixels x y + 16
    let bot_color := pixels x (y + 1) + 16
    let fgPart : List Tok :=
      if some top_color = cfg then [] else [Tok.fg top_color]
    let bgPart : List Tok :=
      if some bot_color = cbg then [] else [Tok.bg bot_color]
    fgPart ++ bgPart ++ Tok.text "▀" ::
      blockScan pixels y xs (some top_color) (some bot_color)

/-- One content row of `img_to_term_block`: left padding (only when
`padding_w > 0`), the paired-pixel scan started with both trackers unset,
right padding (only when `padding_w + img_width < screen_width`), and the
trailing reset. -/
def blockContentLine (pixels : Nat → Nat → Nat) (bg_color : Nat)
    (screen_width img_width padding_w y : Nat) : List Tok :=
  let mid := blockScan pixels y (List.range img_width) none none
  let leftPad : List Tok :=
    if 0 < padding_w then [Tok.bg bg_color, Tok.text (spaces padding_w)] else []
  let visible_len := padding_w + img_width
  let rightPad : List Tok :=
    if visible_len < screen_width then
      [Tok.bg bg_color, Tok.text (spaces (screen_width - visible_len))]
    else []
  leftPad ++ mid ++ rightPad ++ [Tok.reset]

/-- The output lines of `img_to_term_block`:
`padding_h = (screen_height - img_height // 2) // 2` top padding rows, one
content row per `y in range(0, img_height - 1, 2)` (signed arithmetic for
`img_height - 1`), then bottom padding rows appended
`while len(out_lines) < screen_height`.  No lookup can fail, so the result
is total. -/
def img_to_term_block_lines (pixels : Nat → Nat → Nat) (bg_color : Nat)
    (screen_width screen_height img_width img_height : Nat) :
    List (List Tok) :=
  let padding_h := (screen_height - img_height / 2) / 2
  let padding_w := (screen_width - img_width) / 2
  let top := List.replicate padding_h (padRow bg_color screen_width)
  let content :=
    (rangeStep2 ((img_height : Int) - 1)).map
      (blockContentLine pixels bg_color screen_width img_width padding_w)
  let out0 := top ++ content
  out0 ++
    List.replicate (screen_height - out0.length) (padRow bg_color screen_width)

/-- `img_to_term_block`: the returned text, `"\n".join(out_lines)`. -/
def img_to_term_block (pixels : Nat → Nat → Nat) (bg_color : Nat)
    (screen_width screen_height img_width img_height : Nat) : String :=
  String.intercalate "\n"
    ((img_to_term_block_lines pixels bg_color screen_width screen_height
        img_width img_height).map renderLine)

/-- Is this token a foreground escape? -/
def Tok.isFg : Tok → Bool
  | Tok.fg _ => true
  | _ => false

/-- Number of foreground escape sequences in a line. -/
def fgCount (l : List Tok) : Nat :=
  l.countP Tok.isFg

/-- Foreground escapes emitted by the coalescing loop over a color sequence
when the `current_fg` tracker starts at `cur`: one per color that differs
from the tracker, which then follows the colors. -/
def countNew : Option Nat → List Nat → Nat
  | _, [] => 0
  | cur, c :: cs => (if some c = cur then 0 else 1) + countNew (some c) cs

/-- Number of maximal runs of equal adjacent values in a list. -/
def runCount : List Nat → Nat
  | [] => 0
  | [_] => 1
  | a :: b :: rest => (if a = b then 0 else 1) + runCount (b :: rest)

/-- The color sequence of source row `y` restricted to the first `w` columns,
after the `+16` offset. -/
def rowColors (pixels : Nat → Nat → Nat) (y w : Nat) : List Nat :=
  (List.range w).map (fun x => pixels x y + 16)

theorem spaces_length (n : Nat) : (spaces n).length = n := by
  simp [spaces, String.length]

theorem visibleLen_append (a b : List Tok) :
    visibleLen (a ++ b) = visibleLen a + visibleLen b := by
  simp [visibleLen]

theorem visibleLen_padRow (bg_color screen_width : Nat) :
    visibleLen (padRow bg_color screen_width) = screen_width := by
  simp [visibleLen, padRow, visLen, spaces_length]

theorem runCount_pos (a : Nat) (l : List Nat) : 0 < runCount (a :: l) := by
  induction l generalizing a with
  | nil => simp [runCount]
  | cons b rest ih =>
    have := ih b
    simp only [runCount]
    omega

theorem countNew_some (a : Nat) (l : List Nat) :
    countNew (some a) l + 1 = runCount (a :: l) := by
  induction l generalizing a with
  | nil => rfl
  | cons b rest ih =>
    have hb := ih b
    simp only [countNew, runCount, Option.some_inj]
    by_cases hab : a = b
    · subst hab
      simp only [if_pos rfl]
      omega
    · rw [if_neg (fun h => hab h.symm), if_neg hab]
      omega

theorem countNew_none (l : List Nat) : countNew none l = runCount l := by
  cases l with
  | nil => rfl
  | cons a rest =>
    have h := countNew_some a rest
    simp only [countNew, reduceCtorEq, if_false]
    omega

theorem fgCount_nil : fgCount [] = 0 := rfl

theorem fgCount_cons_fg (c : Nat) (l : List Tok) :
    fgCount (Tok.fg c :: l) = 1 + fgCount l := by
  simp [fgCount, List.countP_cons, Tok.isFg, Nat.add_comm]

theorem fgCount_cons_bg (c : Nat) (l : List Tok) :
    fgCount (Tok.bg c :: l) = fgCount l := by
  simp [fgCount, List.countP_cons, Tok.isFg]

theorem fgCount_cons_reset (l : List Tok) :
    fgCount (Tok.reset :: l) = fgCount l := by
  simp [fgCount, List.countP_cons, Tok.isFg]

theorem fgCount_cons_text (s : String) (l : List Tok) :
    fgCount (Tok.text s :: l) = fgCount l := by
  simp [fgCount, List.countP_cons, Tok.isFg]

theorem visibleLen_cons (t : Tok) (l : List Tok) :
    visibleLen (t :: l) = visLen t + visibleLen l := by
  simp [visibleLen]

theorem visLen_fg (c : Nat) : visLen (Tok.fg c) = 0 := rfl

theorem visLen_bg (c : Nat) : visLen (Tok.bg c) = 0 := rfl

theorem visLen_reset : visLen Tok.reset = 0 := rfl

theorem visLen_text (s : String) : visLen (Tok.text s) = s.length := rfl

theorem length_mk_single (c : Char) : (String.mk [c]).length = 1 := rfl

theorem termScan_isSome (pixels pixels_gray : Nat → Nat → Nat)
    (ascii_palette : List Char) (ascii_palette_len y : Nat) (xs : List Nat)
    (h : ∀ x ∈ xs, rampIndex (pixels_gray x y) ascii_palette_len < ascii_palette.length) :
    ∀ cur, ∃ ts,
      termScan pixels pixels_gray ascii_palette ascii_palette_len y xs cur = some ts := by
  induction xs with
  | nil => intro cur; exact ⟨[], rfl⟩
  | cons x xs ih =>
    intro cur
    have hx := h x (List.mem_cons_self x xs)
    obtain ⟨ts, hts⟩ := ih (fun z hz => h z (List.mem_cons_of_mem x hz)) (some (pixels x y + 16))
    simp only [termScan]
    rw [List.get?_eq_get hx]
    simp only []
    rw [hts]
    simp only []
    by_cases hc : some (pixels x y + 16) = cur
    · exact ⟨_, by rw [if_pos hc]⟩
    · exact ⟨_, by rw [if_neg hc]⟩

theorem fgCount_termScan (pixels pixels_gray : Nat → Nat → Nat)
    (ascii_palette : List Char) (ascii_palette_len y : Nat) (xs : List Nat) :
    ∀ cur ts,
      termScan pixels pixels_gray ascii_palette ascii_palette_len y xs cur = some ts →
      fgCount ts = countNew cur (xs.map (fun x => pixels x y + 16)) := by
  induction xs with
  | nil =>
    intro cur ts h
    simp only [termScan, Option.some_inj] at h
    subst h
    rfl
  | cons x xs ih =>
    intro cur ts h
    simp only [termScan] at h
    split at h
    · exact Option.noConfusion h
    split at h
    · exact Option.noConfusion h
    rename_i rest hrec
    have hr := ih (some (pixels x y + 16)) rest hrec
    split at h
    · rename_i hc
      rw [Option.some_inj] at h
      subst h
      rw [fgCount_cons_text, hr]
      simp only [List.map_cons, countNew, if_pos hc]
      omega
    · rename_i hc
      rw [Option.some_inj] at h
      subst h
      rw [fgCount_cons_fg, fgCount_cons_text, hr]
      simp only [List.map_cons, countNew, if_neg hc]

theorem visibleLen_termScan (pixels pixels_gray : Nat → Nat → Nat)
    (ascii_palette : List Char) (ascii_palette_len y : Nat) (xs : List Nat) :
    ∀ cur ts,
      termScan pixels pixels_gray ascii_palette ascii_palette_len y xs cur = some ts →
      visibleLen ts = xs.length := by
  induction xs with
  | nil =>
    intro cur ts h
    simp only [termScan, Option.some_inj] at h
    subst h
    rfl
  | cons x xs ih =>
    intro cur ts h
    simp only [termScan] at h
    split at h
    · exact Option.noConfusion h
    split at h
    · exact Option.noConfusion h
    rename_i rest hrec
    have hr := ih (some (pixels x y + 16)) rest hrec
    split at h
    · rw [Option.some_inj] at h
      subst h
      rw [visibleLen_cons, visLen_text, length_mk_single, hr]
      simp [Nat.add_comm]
    · rw [Option.some_inj] at h
      subst h
      rw [visibleLen_cons, visibleLen_cons, visLen_fg, visLen_text, length_mk_single, hr]
      simp [Nat.add_comm]

theorem mem_termScan (pixels pixels_gray : Nat → Nat → Nat)
    (ascii_palette : List Char) (ascii_palette_len y : Nat) (xs : List Nat) :
    ∀ cur ts,
      termScan pixels pixels_gray ascii_palette ascii_palette_len y xs cur = some ts →
      ∀ t ∈ ts,
        (∃ x, x ∈ xs ∧ t = Tok.fg (pixels x y + 16)) ∨ (∃ s, t = Tok.text s) := by
  induction xs with
  | nil =>
    intro cur ts h
    simp only [termScan, Option.some_inj] at h
    subst h
    intro t ht
    exact absurd ht (List.not_mem_nil t)
  | cons x xs ih =>
    intro cur ts h
    simp only [termScan] at h
    split at h
    · exact Option.noConfusion h
    split at h
    · exact Option.noConfusion h
    rename_i rest hrec
    have hr := ih (some (pixels x y + 16)) rest hrec
    have hstep : ∀ t ∈ rest,
        (∃ x0, x0 ∈ x :: xs ∧ t = Tok.fg (pixels x0 y + 16)) ∨
          (∃ s, t = Tok.text s) := by
      intro t ht
      rcases hr t ht with ⟨x0, hx0, h0⟩ | hs
      · exact Or.inl ⟨x0, List.mem_cons_of_mem x hx0, h0⟩
      · exact Or.inr hs
    split at h
    · rw [Option.some_inj] at h
      subst h
      intro t ht
      rcases List.mem_cons.mp ht with h0 | h0
      · exact Or.inr ⟨_, h0⟩
      · exact hstep t h0
    · rw [Option.some_inj] at h
      subst h
      intro t ht
      rcases List.mem_cons.mp ht with h0 | h0
      · exact Or.inl ⟨x, List.mem_cons_self x xs, h0⟩
      · rcases List.mem_cons.mp h0 with h1 | h1
        · exact Or.inr ⟨_, h1⟩
        · exact hstep t h1

theorem termScan_none_head (pixels pixels_gray : Nat → Nat → Nat)
    (ascii_palette : List Char) (ascii_palette_len y x : Nat) (xs : List Nat)
    (ts : List Tok)
    (h : termScan pixels pixels_gray ascii_palette ascii_palette_len y (x :: xs) none =
      some ts) :
    ∃ rest, ts = Tok.fg (pixels x y + 16) :: rest := by
  simp only [termScan] at h
  split at h
  · exact Option.noConfusion h
  split at h
  · exact Option.noConfusion h
  split at h
  · rename_i hc
    exact absurd hc (by simp)
  · rw [Option.some_inj] at h
    exact ⟨_, h.symm⟩

theorem fgCount_append (a b : List Tok) :
    fgCount (a ++ b) = fgCount a + fgCount b := by
  simp [fgCount, List.countP_append]

theorem visLen_halfblock : visLen (Tok.text "▀") = 1 := rfl

theorem fgCount_blockScan (pixels : Nat → Nat → Nat) (y : Nat) (xs : List Nat) :
    ∀ cfg cbg,
      fgCount (blockScan pixels y xs cfg cbg) =
        countNew cfg (xs.map (fun x => pixels x y + 16)) := by
  induction xs with
  | nil => intro cfg cbg; rfl
  | cons x xs ih =>
    intro cfg cbg
    simp only [blockScan, List.map_cons, countNew]
    rw [fgCount_append, fgCount_append, fgCount_cons_text,
      ih (some (pixels x y + 16)) (some (pixels x (y + 1) + 16))]
    by_cases hc : some (pixels x y + 16) = cfg
    · rw [if_pos hc, if_pos hc]
      by_cases hb : some (pixels x (y + 1) + 16) = cbg
      · rw [if_pos hb]; rfl
      · rw [if_neg hb, fgCount_cons_bg]; rfl
    · rw [if_neg hc, if_neg hc, fgCount_cons_fg]
      by_cases hb : some (pixels x (y + 1) + 16) = cbg
      · rw [if_pos hb]; simp [fgCount]
      · rw [if_neg hb, fgCount_cons_bg]; simp [fgCount]

theorem visibleLen_blockScan (pixels : Nat → Nat → Nat) (y : Nat) (xs : List Nat) :
    ∀ cfg cbg, visibleLen (blockScan pixels y xs cfg cbg) = xs.length := by
  induction xs with
  | nil => intro cfg cbg; rfl
  | cons x xs ih =>
    intro cfg cbg
    simp only [blockScan]
    by_cases hc : some (pixels x y + 16) = cfg
    · by_cases hb : some (pixels x (y + 1) + 16) = cbg
      · rw [if_pos hc, if_pos hb]
        simp only [List.nil_append]
        rw [visibleLen_cons, visLen_halfblock,
          ih (some (pixels x y + 16)) (some (pixels x (y + 1) + 16)), List.length_cons]
        omega
      · rw [if_pos hc, if_neg hb]
        simp only [List.nil_append, List.singleton_append]
        rw [visibleLen_cons, visibleLen_cons, visLen_bg, visLen_halfblock,
          ih (some (pixels x y + 16)) (some (pixels x (y + 1) + 16)), List.length_cons]
        omega
    · by_cases hb : some (pixels x (y + 1) + 16) = cbg
      · rw [if_neg hc, if_pos hb]
        simp only [List.nil_append, List.singleton_append]
        rw [visibleLen_cons, visibleLen_cons, visLen_fg, visLen_halfblock,
          ih (some (pixels x y + 16)) (some (pixels x (y + 1) + 16)), List.length_cons]
        omega
      · rw [if_neg hc, if_neg hb]
        simp only [List.cons_append, List.nil_append]
        rw [visibleLen_cons, visibleLen_cons, visibleLen_cons, visLen_fg, visLen_bg,
          visLen_halfblock,
          ih (some (pixels x y + 16)) (some (pixels x (y + 1) + 16)), List.length_cons]
        omega

theorem mem_blockScan (pixels : Nat → Nat → Nat) (y : Nat) (xs : List Nat) :
    ∀ cfg cbg, ∀ t ∈ blockScan pixels y xs cfg cbg,
      (∃ x, x ∈ xs ∧ t = Tok.fg (pixels x y + 16)) ∨
        (∃ x, x ∈ xs ∧ t = Tok.bg (pixels x (y + 1) + 16)) ∨
        (∃ s, t = Tok.text s) := by
  induction xs with
  | nil =>
    intro cfg cbg t ht
    exact absurd ht (List.not_mem_nil t)
  | cons x xs ih =>
    intro cfg cbg t ht
    have hstep : t ∈ blockScan pixels y xs (some (pixels x y + 16))
          (some (pixels x (y + 1) + 16)) →
        (∃ x0, x0 ∈ x :: xs ∧ t = Tok.fg (pixels x0 y + 16)) ∨
          (∃ x0, x0 ∈ x :: xs ∧ t = Tok.bg (pixels x0 (y + 1) + 16)) ∨
          (∃ s, t = Tok.text s) := by
      intro hmem
      rcases ih (some (pixels x y + 16)) (some (pixels x (y + 1) + 16)) t hmem with
        ⟨x0, hx0, h0⟩ | ⟨x0, hx0, h0⟩ | hs
      · exact Or.inl ⟨x0, List.mem_cons_of_mem x hx0, h0⟩
      · exact Or.inr (Or.inl ⟨x0, List.mem_cons_of_mem x hx0, h0⟩)
      · exact Or.inr (Or.inr hs)
    have htext : t = Tok.text "▀" → (∃ s, t = Tok.text s) := fun h0 => ⟨_, h0⟩
    simp only [blockScan] at ht
    by_cases hc : some (pixels x y + 16) = cfg
    · rw [if_pos hc] at ht
      by_cases hb : some (pixels x (y + 1) + 16) = cbg
      · rw [if_pos hb] at ht
        simp only [List.nil_append] at ht
        rcases List.mem_cons.mp ht with h0 | h0
        · exact Or.inr (Or.inr (htext h0))
        · exact hstep h0
      · rw [if_neg hb] at ht
        simp only [List.nil_append, List.singleton_append] at ht
        rcases List.mem_cons.mp ht with h0 | h0
        · exact Or.inr (Or.inl ⟨x, List.mem_cons_self x xs, h0⟩)
        · rcases List.mem_cons.mp h0 with h1 | h1
          · exact Or.inr (Or.inr (htext h1))
          · exact hstep h1
    · rw [if_neg hc] at ht
      by_cases hb : some (pixels x (y + 1) + 16) = cbg
      · rw [if_pos hb] at ht
        simp only [List.nil_append, List.singleton_append] at ht
        rcases List.mem_cons.mp ht with h0 | h0
        · exact Or.inl ⟨x, List.mem_cons_self x xs, h0⟩
        · rcases List.mem_cons.mp h0 with h1 | h1
          · exact Or.inr (Or.inr (htext h1))
          · exact hstep h1
      · rw [if_neg hb] at ht
        simp only [List.singleton_append, List.cons_append, List.nil_append] at ht
        rcases List.mem_cons.mp ht with h0 | h0
        · exact Or.inl ⟨x, List.mem_cons_self x xs, h0⟩
        · rcases List.mem_cons.mp h0 with h1 | h1
          · exact Or.inr (Or.inl ⟨x, List.mem_cons_self x xs, h1⟩)
          · rcases List.mem_cons.mp h1 with h2 | h2
            · exact Or.inr (Or.inr (htext h2))
            · exact hstep h2

theorem blockScan_head (pixels : Nat → Nat → Nat) (y x : Nat) (xs : List Nat) :
    ∃ rest,
      blockScan pixels y (x :: xs) none none = Tok.fg (pixels x y + 16) :: rest := by
  simp only [blockScan]
  rw [if_neg (by simp), if_neg (by simp)]
  exact ⟨_, rfl⟩

theorem blockScan_ext (pixels pixels2 : Nat → Nat → Nat) (y : Nat)
    (hy : ∀ x, pixels x y = pixels2 x y)
    (hy1 : ∀ x, pixels x (y + 1) = pixels2 x (y + 1)) (xs : List Nat) :
    ∀ cfg cbg, blockScan pixels y xs cfg cbg = blockScan pixels2 y xs cfg cbg := by
  induction xs with
  | nil => intro cfg cbg; rfl
  | cons x xs ih =>
    intro cfg cbg
    simp only [blockScan, hy x, hy1 x,
      ih (some (pixels2 x y + 16)) (some (pixels2 x (y + 1) + 16))]

theorem mapOption_isSome (f : Nat → Option (List Tok)) (l : List Nat)
    (h : ∀ y ∈ l, ∃ r, f y = some r) :
    ∃ rs, mapOption f l = some rs ∧ rs.length = l.length := by
  induction l with
  | nil => exact ⟨[], rfl, rfl⟩
  | cons y ys ih =>
    obtain ⟨r, hr⟩ := h y (List.mem_cons_self y ys)
    obtain ⟨rs, hrs, hlen⟩ := ih (fun z hz => h z (List.mem_cons_of_mem y hz))
    refine ⟨r :: rs, ?_, by simp [hlen]⟩
    simp only [mapOption]
    rw [hr, hrs]

theorem mapOption_length (f : Nat → Option (List Tok)) (l : List Nat) :
    ∀ rs, mapOption f l = some rs → rs.length = l.length := by
  induction l with
  | nil =>
    intro rs h
    simp only [mapOption, Option.some_inj] at h
    subst h
    rfl
  | cons y ys ih =>
    intro rs h
    simp only [mapOption] at h
    split at h
    · exact Option.noConfusion h
    split at h
    · exact Option.noConfusion h
    rename_i ls hls
    rw [Option.some_inj] at h
    subst h
    simp [ih ls hls]

theorem mapOption_mem (f : Nat → Option (List Tok)) (l : List Nat) :
    ∀ rs, mapOption f l = some rs → ∀ r ∈ rs, ∃ y, y ∈ l ∧ f y = some r := by
  induction l with
  | nil =>
    intro rs h r hr
    simp only [mapOption, Option.some_inj] at h
    subst h
    exact absurd hr (List.not_mem_nil r)
  | cons y ys ih =>
    intro rs h r hr
    simp only [mapOption] at h
    cases hfy : f y with
    | none =>
      rw [hfy] at h
      simp only [] at h
      exact Option.noConfusion h
    | some l0 =>
      rw [hfy] at h
      simp only [] at h
      cases hrest : mapOption f ys with
      | none =>
        rw [hrest] at h
        simp only [] at h
        exact Option.noConfusion h
      | some ls =>
        rw [hrest] at h
        simp only [Option.some_inj] at h
        subst h
        rcases List.mem_cons.mp hr with h0 | h0
        · exact ⟨y, List.mem_cons_self y ys, by rw [hfy, h0]⟩
        · obtain ⟨z, hz, hfz⟩ := ih ls hrest r h0
          exact ⟨z, List.mem_cons_of_mem y hz, hfz⟩

theorem mapOption_cons (f : Nat → Option (List Tok)) (y : Nat) (ys : List Nat) :
    ∀ rs, mapOption f (y :: ys) = some rs →
      ∃ r rest, f y = some r ∧ mapOption f ys = some rest ∧ rs = r :: rest := by
  intro rs h
  simp only [mapOption] at h
  cases hfy : f y with
  | none =>
    rw [hfy] at h
    simp only [] at h
    exact Option.noConfusion h
  | some r =>
    rw [hfy] at h
    simp only [] at h
    cases hrest : mapOption f ys with
    | none =>
      rw [hrest] at h
      simp only [] at h
      exact Option.noConfusion h
    | some ls =>
      rw [hrest] at h
      simp only [Option.some_inj] at h
      exact ⟨r, ls, rfl, rfl, h.symm⟩

theorem termContentLine_some (pixels pixels_gray : Nat → Nat → Nat) (bg_color : Nat)
    (ascii_palette : List Char) (ascii_palette_len : Nat)
    (screen_width img_width padding_w y : Nat) (l : List Tok)
    (h : termContentLine pixels pixels_gray bg_color ascii_palette ascii_palette_len
      screen_width img_width padding_w y = some l) :
    ∃ mid,
      termScan pixels pixels_gray ascii_palette ascii_palette_len y
        (List.range img_width) none = some mid ∧
      l = (if 0 < padding_w then [Tok.bg bg_color, Tok.text (spaces padding_w)] else []) ++
        mid ++
        (if padding_w + img_width < screen_width then
          [Tok.bg bg_color, Tok.text (spaces (screen_width - (padding_w + img_width)))]
        else []) ++ [Tok.reset] := by
  simp only [termContentLine] at h
  cases hscan : termScan pixels pixels_gray ascii_palette ascii_palette_len y
      (List.range img_width) none with
  | none =>
    rw [hscan] at h
    simp only [] at h
    exact Option.noConfusion h
  | some mid =>
    rw [hscan] at h
    simp only [Option.some_inj] at h
    exact ⟨mid, rfl, h.symm⟩

theorem termContentLine_isSome (pixels pixels_gray : Nat → Nat → Nat) (bg_color : Nat)
    (ascii_palette : List Char) (ascii_palette_len : Nat)
    (screen_width img_width padding_w y : Nat)
    (h : ∀ x ∈ List.range img_width,
      rampIndex (pixels_gray x y) ascii_palette_len < ascii_palette.length) :
    ∃ l, termContentLine pixels pixels_gray bg_color ascii_palette ascii_palette_len
      screen_width img_width padding_w y = some l := by
  obtain ⟨mid, hmid⟩ :=
    termScan_isSome pixels pixels_gray ascii_palette ascii_palette_len y
      (List.range img_width) h none
  simp only [termContentLine, hmid]
  exact ⟨_, rfl⟩

theorem img_to_term_lines_some (pixels pixels_gray : Nat → Nat → Nat) (bg_color : Nat)
    (ascii_palette : List Char) (ascii_palette_len : Nat)
    (screen_width screen_height img_width img_height : Nat) (ls : List (List Tok))
    (h : img_to_term_lines pixels pixels_gray bg_color ascii_palette ascii_palette_len
      screen_width screen_height img_width img_height = some ls) :
    ∃ content,
      mapOption
        (termContentLine pixels pixels_gray bg_color ascii_palette ascii_palette_len
          screen_width img_width ((screen_width - img_width) / 2))
        (List.range img_height) = some content ∧
      ls = (List.replicate ((screen_height - img_height) / 2)
          (padRow bg_color screen_width) ++ content) ++
        List.replicate
          (screen_height -
            (List.replicate ((screen_height - img_height) / 2)
                (padRow bg_color screen_width) ++ content).length)
          (padRow bg_color screen_width) := by
  simp only [img_to_term_lines] at h
  cases hmap : mapOption
      (termContentLine pixels pixels_gray bg_color ascii_palette ascii_palette_len
        screen_width img_width ((screen_width - img_width) / 2))
      (List.range img_height) with
  | none =>
    rw [hmap] at h
    simp only [] at h
    exact Option.noConfusion h
  | some content =>
    rw [hmap] at h
    simp only [Option.some_inj] at h
    exact ⟨content, rfl, h.symm⟩

theorem img_to_term_lines_of_valid (pixels pixels_gray : Nat → Nat → Nat)
    (bg_color : Nat) (ascii_palette : List Char) (ascii_palette_len : Nat)
    (screen_width screen_height img_width img_height : Nat)
    (hih : img_height ≤ screen_height)
    (hidx : ∀ x y, x < img_width → y < img_height →
      rampIndex (pixels_gray x y) ascii_palette_len < ascii_palette.length) :
    ∃ ls,
      img_to_term_lines pixels pixels_gray bg_color ascii_palette ascii_palette_len
        screen_width screen_height img_width img_height = some ls ∧
      ls.length = screen_height := by
  have hrow : ∀ y ∈ List.range img_height,
      ∃ r, termContentLine pixels pixels_gray bg_color ascii_palette ascii_palette_len
        screen_width img_width ((screen_width - img_width) / 2) y = some r := by
    intro y hy
    exact termContentLine_isSome pixels pixels_gray bg_color ascii_palette
      ascii_palette_len screen_width img_width ((screen_width - img_width) / 2) y
      (fun x hx => hidx x y (List.mem_range.mp hx) (List.mem_range.mp hy))
  obtain ⟨content, hmap, hlen⟩ :=
    mapOption_isSome
      (termContentLine pixels pixels_gray bg_color ascii_palette ascii_palette_len
        screen_width img_width ((screen_width - img_width) / 2))
      (List.range img_height) hrow
  rw [List.length_range] at hlen
  simp only [img_to_term_lines, hmap]
  refine ⟨_, rfl, ?_⟩
  simp only [List.length_append, List.length_replicate, hlen]
  have hdiv : (screen_height - img_height) / 2 ≤ screen_height - img_height :=
    Nat.div_le_self _ _
  omega

theorem rangeStep2_pred_length (img_height : Nat) :
    (rangeStep2 ((img_height : Int) - 1)).length = img_height / 2 := by
  simp only [rangeStep2, List.length_map, List.length_range]
  omega

theorem img_to_term_block_lines_length (pixels : Nat → Nat → Nat) (bg_color : Nat)
    (screen_width screen_height img_width img_height : Nat)
    (hih : img_height ≤ screen_height) :
    (img_to_term_block_lines pixels bg_color screen_width screen_height img_width
      img_height).length = screen_height := by
  simp only [img_to_term_block_lines, List.length_append, List.length_replicate,
    List.length_map, rangeStep2_pred_length]
  have hdiv : (screen_height - img_height / 2) / 2 ≤ screen_height - img_height / 2 :=
    Nat.div_le_self _ _
  omega

theorem mem_term_lines (pixels pixels_gray : Nat → Nat → Nat) (bg_color : Nat)
    (ascii_palette : List Char) (ascii_palette_len : Nat)
    (screen_width screen_height img_width img_height : Nat) (ls : List (List Tok))
    (h0 : img_to_term_lines pixels pixels_gray bg_color ascii_palette ascii_palette_len
      screen_width screen_height img_width img_height = some ls) :
    ∀ l ∈ ls,
      l = padRow bg_color screen_width ∨
        ∃ y, y < img_height ∧
          termContentLine pixels pixels_gray bg_color ascii_palette ascii_palette_len
            screen_width img_width ((screen_width - img_width) / 2) y = some l := by
  intro l hl
  obtain ⟨content, hmap, hls⟩ :=
    img_to_term_lines_some pixels pixels_gray bg_color ascii_palette ascii_palette_len
      screen_width screen_height img_width img_height ls h0
  subst hls
  rcases List.mem_append.mp hl with h1 | h1
  · rcases List.mem_append.mp h1 with h2 | h2
    · exact Or.inl (List.eq_of_mem_replicate h2)
    · obtain ⟨y, hy, hfy⟩ :=
        mapOption_mem
          (termContentLine pixels pixels_gray bg_color ascii_palette ascii_palette_len
            screen_width img_width ((screen_width - img_width) / 2))
          (List.range img_height) content hmap l h2
      exact Or.inr ⟨y, List.mem_range.mp hy, hfy⟩
  · exact Or.inl (List.eq_of_mem_replicate h1)

theorem mem_block_lines (pixels : Nat → Nat → Nat) (bg_color : Nat)
    (screen_width screen_height img_width img_height : Nat) :
    ∀ l ∈ img_to_term_block_lines pixels bg_color screen_width screen_height
        img_width img_height,
      l = padRow bg_color screen_width ∨
        ∃ y, y ∈ rangeStep2 ((img_height : Int) - 1) ∧
          l = blockContentLine pixels bg_color screen_width img_width
            ((screen_width - img_width) / 2) y := by
  intro l hl
  simp only [img_to_term_block_lines] at hl
  rcases List.mem_append.mp hl with h1 | h1
  · rcases List.mem_append.mp h1 with h2 | h2
    · exact Or.inl (List.eq_of_mem_replicate h2)
    · obtain ⟨y, hy, hfy⟩ := List.mem_map.mp h2
      exact Or.inr ⟨y, hy, hfy.symm⟩
  · exact Or.inl (List.eq_of_mem_replicate h1)

theorem visibleLen_termContentLine (pixels pixels_gray : Nat → Nat → Nat)
    (bg_color : Nat) (ascii_palette : List Char) (ascii_palette_len : Nat)
    (screen_width img_width padding_w y : Nat) (l : List Tok)
    (hgeo : padding_w + img_width ≤ screen_width)
    (h : termContentLine pixels pixels_gray bg_color ascii_palette ascii_palette_len
      screen_width img_width padding_w y = some l) :
    visibleLen l = screen_width := by
  obtain ⟨mid, hmid, hl⟩ :=
    termContentLine_some pixels pixels_gray bg_color ascii_palette ascii_palette_len
      screen_width img_width padding_w y l h
  subst hl
  have hvmid :=
    visibleLen_termScan pixels pixels_gray ascii_palette ascii_palette_len y
      (List.range img_width) none mid hmid
  rw [List.length_range] at hvmid
  rw [visibleLen_append, visibleLen_append, visibleLen_append, hvmid]
  by_cases hlp : 0 < padding_w
  · rw [if_pos hlp]
    by_cases hrp : padding_w + img_width < screen_width
    · rw [if_pos hrp]
      simp [visibleLen, visLen, spaces_length]
      omega
    · rw [if_neg hrp]
      simp [visibleLen, visLen, spaces_length]
      omega
  · rw [if_neg hlp]
    by_cases hrp : padding_w + img_width < screen_width
    · rw [if_pos hrp]
      simp [visibleLen, visLen, spaces_length]
      omega
    · rw [if_neg hrp]
      simp [visibleLen, visLen, spaces_length]
      omega

theorem visibleLen_blockContentLine (pixels : Nat → Nat → Nat) (bg_color : Nat)
    (screen_width img_width padding_w y : Nat)
    (hgeo : padding_w + img_width ≤ screen_width) :
    visibleLen (blockContentLine pixels bg_color screen_width img_width padding_w y) =
      screen_width := by
  simp only [blockContentLine]
  have hvmid := visibleLen_blockScan pixels y (List.range img_width) none none
  rw [List.length_range] at hvmid
  rw [visibleLen_append, visibleLen_append, visibleLen_append, hvmid]
  by_cases hlp : 0 < padding_w
  · rw [if_pos hlp]
    by_cases hrp : padding_w + img_width < screen_width
    · rw [if_pos hrp]
      simp [visibleLen, visLen, spaces_length]
      omega
    · rw [if_neg hrp]
      simp [visibleLen, visLen, spaces_length]
      omega
  · rw [if_neg hlp]
    by_cases hrp : padding_w + img_width < screen_width
    · rw [if_pos hrp]
      simp [visibleLen, visLen, spaces_length]
      omega
    · rw [if_neg hrp]
      simp [visibleLen, visLen, spaces_length]
      omega

theorem termScan_head_fail (pixels pixels_gray : Nat → Nat → Nat)
    (ascii_palette : List Char) (ascii_palette_len y x : Nat) (xs : List Nat)
    (cur : Option Nat)
    (hget : ascii_palette.get? (rampIndex (pixels_gray x y) ascii_palette_len) = none) :
    termScan pixels pixels_gray ascii_palette ascii_palette_len y (x :: xs) cur =
      none := by
  simp only [termScan, hget]

theorem termContentLine_fail (pixels pixels_gray : Nat → Nat → Nat) (bg_color : Nat)
    (ascii_palette : List Char) (ascii_palette_len : Nat)
    (screen_width img_width padding_w y : Nat)
    (hscan : termScan pixels pixels_gray ascii_palette ascii_palette_len y
      (List.range img_width) none = none) :
    termContentLine pixels pixels_gray bg_color ascii_palette ascii_palette_len
      screen_width img_width padding_w y = none := by
  simp only [termContentLine, hscan]

theorem img_to_term_lines_fail_row0 (pixels pixels_gray : Nat → Nat → Nat)
    (bg_color : Nat) (ascii_palette : List Char) (ascii_palette_len : Nat)
    (screen_width screen_height img_width img_height : Nat)
    (hih : 0 < img_height)
    (hrow : termContentLine pixels pixels_gray bg_color ascii_palette
      ascii_palette_len screen_width img_width ((screen_width - img_width) / 2) 0 =
      none) :
    img_to_term_lines pixels pixels_gray bg_color ascii_palette ascii_palette_len
      screen_width screen_height img_width img_height = none := by
  obtain ⟨k, rfl⟩ : ∃ k, img_height = k + 1 := ⟨img_height - 1, by omega⟩
  simp only [img_to_term_lines, List.range_succ_eq_map, mapOption, hrow]

/-- C1, as written, fails on the code: the call below has valid geometry
(`screen_width = screen_height = 1`, `img_width = img_height = 1`), a
non-empty ramp `['.']`, and every luminance equal to `255`, inside the
documented luminance range `[0,255]` — yet the glyph-density encoder's ramp
index is `255 * 1 / 255 = 1`, one past the last ramp index, so the list
access fails and no text is returned at all (in particular not
`screen_height` lines). -/
theorem claim1_counterexample :
    img_to_term (fun _ _ => 0) (fun _ _ => 255) 0 ['.'] 1 1 1 1 1 = none := by
  decide

/-- C1 (amended): for valid geometry (`img_height ≤ screen_height`,
`img_width ≤ screen_width`) and, for the glyph-density encoder, a ramp and
luminances for which every computed ramp index is in range (e.g. a non-empty
ramp and all luminances `≤ 254`), both encoders return exactly
`screen_height` output lines. -/
theorem claim1_line_counts (pixels pixels_gray : Nat → Nat → Nat) (bg_color : Nat)
    (ascii_palette : List Char) (ascii_palette_len : Nat)
    (screen_width screen_height img_width img_height : Nat)
    (pixels2 : Nat → Nat → Nat) (bg_color2 : Nat)
    (screen_width2 screen_height2 img_width2 img_height2 : Nat)
    (hih : img_height ≤ screen_height) (hiw : img_width ≤ screen_width)
    (hidx : ∀ x y, x < img_width → y < img_height →
      rampIndex (pixels_gray x y) ascii_palette_len < ascii_palette.length)
    (hih2 : img_height2 ≤ screen_height2) (hiw2 : img_width2 ≤ screen_width2) :
    (∃ ls,
      img_to_term_lines pixels pixels_gray bg_color ascii_palette ascii_palette_len
        screen_width screen_height img_width img_height = some ls ∧
      ls.length = screen_height) ∧
    (img_to_term_block_lines pixels2 bg_color2 screen_width2 screen_height2
      img_width2 img_height2).length = screen_height2 := by
  refine ⟨?_, ?_⟩
  · exact img_to_term_lines_of_valid pixels pixels_gray bg_color ascii_palette
      ascii_palette_len screen_width screen_height img_width img_height hih hidx
  · exact img_to_term_block_lines_length pixels2 bg_color2 screen_width2
      screen_height2 img_width2 img_height2 hih2

theorem claim1_witness :
    (∃ ls,
      img_to_term_lines (fun _ _ => 0) (fun _ _ => 0) 0 ['.', ' '] 2 4 3 2 2 =
        some ls ∧ ls.length = 3) ∧
    (img_to_term_block_lines (fun _ _ => 0) 0 4 3 2 2).length = 3 := by
  exact claim1_line_counts (fun _ _ => 0) (fun _ _ => 0) 0 ['.', ' '] 2 4 3 2 2
    (fun _ _ => 0) 0 4 3 2 2 (by decide) (by decide)
    (fun x y _ _ => by norm_num [rampIndex]) (by decide) (by decide)

/-- C2: under valid geometry, every output line of either encoder has visible
width (escape sequences stripped) exactly `screen_width`: for the
glyph-density encoder this holds for every line of any returned output, and
for the half-block encoder unconditionally. -/
theorem claim2_visible_width (pixels pixels_gray : Nat → Nat → Nat) (bg_color : Nat)
    (ascii_palette : List Char) (ascii_palette_len : Nat)
    (screen_width screen_height img_width img_height : Nat) (ls : List (List Tok))
    (pixels2 : Nat → Nat → Nat) (bg_color2 : Nat)
    (screen_width2 screen_height2 img_width2 img_height2 : Nat)
    (hiw : img_width ≤ screen_width)
    (hls : img_to_term_lines pixels pixels_gray bg_color ascii_palette
      ascii_palette_len screen_width screen_height img_width img_height = some ls)
    (hiw2 : img_width2 ≤ screen_width2) :
    (∀ l ∈ ls, visibleLen l = screen_width) ∧
    (∀ l ∈ img_to_term_block_lines pixels2 bg_color2 screen_width2 screen_height2
        img_width2 img_height2,
      visibleLen l = screen_width2) := by
  constructor
  · intro l hl
    rcases mem_term_lines pixels pixels_gray bg_color ascii_palette ascii_palette_len
        screen_width screen_height img_width img_height ls hls l hl with h | ⟨y, _, hy⟩
    · rw [h, visibleLen_padRow]
    · exact visibleLen_termContentLine pixels pixels_gray bg_color ascii_palette
        ascii_palette_len screen_width img_width ((screen_width - img_width) / 2) y l
        (by have := Nat.div_le_self (screen_width - img_width) 2; omega) hy
  · intro l hl
    rcases mem_block_lines pixels2 bg_color2 screen_width2 screen_height2 img_width2
        img_height2 l hl with h | ⟨y, _, hy⟩
    · rw [h, visibleLen_padRow]
    · rw [hy]
      exact visibleLen_blockContentLine pixels2 bg_color2 screen_width2 img_width2
        ((screen_width2 - img_width2) / 2) y
        (by have := Nat.div_le_self (screen_width2 - img_width2) 2; omega)

theorem claim2_witness :
    (∀ l ∈ [[Tok.bg 0, Tok.text (spaces 1), Tok.reset]], visibleLen l = 1) ∧
    (∀ l ∈ img_to_term_block_lines (fun _ _ => 0) 0 1 1 1 0, visibleLen l = 1) := by
  exact claim2_visible_width (fun _ _ => 0) (fun _ _ => 0) 0 [] 0 1 1 0 1
    [[Tok.bg 0, Tok.text (spaces 1), Tok.reset]]
    (fun _ _ => 0) 0 1 1 1 0 (by decide) (by decide) (by decide)

/-- C3: the glyph for a pixel is `ramp[(luminance * ramp_length) // 255]`;
at the maximum luminance `255` and any `ramp_length ≥ 1` this index equals
`ramp_length` — one past the last valid ramp index — and the source has no
clamp or guard: the model's list access returns nothing and the whole call
fails. -/
theorem claim3_ramp_overflow (pixels pixels_gray : Nat → Nat → Nat) (bg_color : Nat)
    (ascii_palette : List Char)
    (screen_width screen_height img_width img_height : Nat)
    (h255 : pixels_gray 0 0 = 255)
    (h1 : 1 ≤ ascii_palette.length)
    (hiw : 0 < img_width) (hih : 0 < img_height) :
    rampIndex (pixels_gray 0 0) ascii_palette.length = ascii_palette.length ∧
    ascii_palette.get? (rampIndex (pixels_gray 0 0) ascii_palette.length) = none ∧
    img_to_term_lines pixels pixels_gray bg_color ascii_palette ascii_palette.length
      screen_width screen_height img_width img_height = none := by
  have hidx : rampIndex (pixels_gray 0 0) ascii_palette.length =
      ascii_palette.length := by
    rw [h255]
    simp only [rampIndex]
    omega
  have hget : ascii_palette.get? (rampIndex (pixels_gray 0 0) ascii_palette.length) =
      none := by
    rw [hidx]
    exact List.get?_eq_none.mpr (Nat.le_refl _)
  refine ⟨hidx, hget, ?_⟩
  apply img_to_term_lines_fail_row0 pixels pixels_gray bg_color ascii_palette
    ascii_palette.length screen_width screen_height img_width img_height hih
  apply termContentLine_fail
  obtain ⟨k, rfl⟩ : ∃ k, img_width = k + 1 := ⟨img_width - 1, by omega⟩
  rw [List.range_succ_eq_map]
  exact termScan_head_fail pixels pixels_gray ascii_palette ascii_palette.length 0 0
    _ none hget

theorem claim3_witness :
    rampIndex 255 4 = 4 ∧
    (['.', ':', '+', '#'].get? (rampIndex 255 4) = none) ∧
    img_to_term_lines (fun _ _ => 0) (fun _ _ => 255) 0 ['.', ':', '+', '#'] 4
      5 5 2 2 = none := by
  have h := claim3_ramp_overflow (fun _ _ => 0) (fun _ _ => 255) 0
    ['.', ':', '+', '#'] 5 5 2 2 (by decide) (by decide) (by decide) (by decide)
  exact h

/-- C10: the ramp-index divisor is the constant `255`, never the ramp length,
so an empty ramp (`ramp_length = 0`) produces index
`(luminance * 0) / 255 = 0` for every pixel — no division by zero — and the
failure is the out-of-range access at index `0` into the empty ramp. -/
theorem claim10_zero_ramp (pixels pixels_gray : Nat → Nat → Nat) (bg_color : Nat)
    (screen_width screen_height img_width img_height : Nat)
    (hiw : 0 < img_width) (hih : 0 < img_height) :
    (∀ gray_val : Nat, rampIndex gray_val 0 = 0) ∧
    (([] : List Char).get? (rampIndex (pixels_gray 0 0) 0) = none) ∧
    img_to_term_lines pixels pixels_gray bg_color [] 0 screen_width screen_height
      img_width img_height = none := by
  have hzero : ∀ gray_val : Nat, rampIndex gray_val 0 = 0 := by
    intro gray_val
    simp [rampIndex]
  have hget : ([] : List Char).get? (rampIndex (pixels_gray 0 0) 0) = none := by
    rw [hzero]
    rfl
  refine ⟨hzero, hget, ?_⟩
  apply img_to_term_lines_fail_row0 pixels pixels_gray bg_color [] 0 screen_width
    screen_height img_width img_height hih
  apply termContentLine_fail
  obtain ⟨k, rfl⟩ : ∃ k, img_width = k + 1 := ⟨img_width - 1, by omega⟩
  rw [List.range_succ_eq_map]
  exact termScan_head_fail pixels pixels_gray [] 0 0 0 _ none hget

theorem claim10_witness :
    (∀ gray_val : Nat, rampIndex gray_val 0 = 0) ∧
    (([] : List Char).get? (rampIndex 7 0) = none) ∧
    img_to_term_lines (fun _ _ => 3) (fun _ _ => 7) 2 [] 0 4 4 2 2 = none := by
  exact claim10_zero_ramp (fun _ _ => 3) (fun _ _ => 7) 2 4 4 2 2
    (by decide) (by decide)

theorem fgCount_pad_fragment (c : Prop) [Decidable c] (b : Nat) (str : String) :
    fgCount (if c then [Tok.bg b, Tok.text str] else []) = 0 := by
  split <;> rfl

theorem fgCount_reset_singleton : fgCount [Tok.reset] = 0 := rfl

theorem runCount_rowColors_pos (pixels : Nat → Nat → Nat) (y img_width : Nat)
    (hiw : 0 < img_width) : 0 < runCount (rowColors pixels y img_width) := by
  obtain ⟨k, rfl⟩ : ∃ k, img_width = k + 1 := ⟨img_width - 1, by omega⟩
  rw [rowColors, List.range_succ_eq_map, List.map_cons]
  exact runCount_pos _ _

theorem fgCount_termContentLine (pixels pixels_gray : Nat → Nat → Nat)
    (bg_color : Nat) (ascii_palette : List Char) (ascii_palette_len : Nat)
    (screen_width img_width padding_w y : Nat) (l : List Tok)
    (h : termContentLine pixels pixels_gray bg_color ascii_palette ascii_palette_len
      screen_width img_width padding_w y = some l) :
    fgCount l = runCount (rowColors pixels y img_width) := by
  obtain ⟨mid, hmid, hl⟩ :=
    termContentLine_some pixels pixels_gray bg_color ascii_palette ascii_palette_len
      screen_width img_width padding_w y l h
  subst hl
  rw [fgCount_append, fgCount_append, fgCount_append, fgCount_pad_fragment,
    fgCount_pad_fragment, fgCount_reset_singleton,
    fgCount_termScan pixels pixels_gray ascii_palette ascii_palette_len y
      (List.range img_width) none mid hmid, countNew_none]
  simp [rowColors]

theorem fgCount_blockContentLine (pixels : Nat → Nat → Nat) (bg_color : Nat)
    (screen_width img_width padding_w y : Nat) :
    fgCount (blockContentLine pixels bg_color screen_width img_width padding_w y) =
      runCount (rowColors pixels y img_width) := by
  simp only [blockContentLine]
  rw [fgCount_append, fgCount_append, fgCount_append, fgCount_pad_fragment,
    fgCount_pad_fragment, fgCount_reset_singleton,
    fgCount_blockScan pixels y (List.range img_width) none none, countNew_none]
  simp [rowColors]

/-- C4: for every content row of either encoder, the number of foreground
escapes equals the number of maximal runs of equal (offset-by-16) color
values in that row's pixel sequence; the `current_fg` tracker is restarted
at the unset sentinel on every row, so a non-empty row always emits at least
one foreground escape, whatever the previous row ended with. -/
theorem claim4_run_coalescing (pixels pixels_gray : Nat → Nat → Nat) (bg_color : Nat)
    (ascii_palette : List Char) (ascii_palette_len : Nat)
    (screen_width img_width padding_w y : Nat) (l : List Tok)
    (pixels2 : Nat → Nat → Nat) (bg_color2 : Nat)
    (screen_width2 img_width2 padding_w2 y2 : Nat)
    (h : termContentLine pixels pixels_gray bg_color ascii_palette ascii_palette_len
      screen_width img_width padding_w y = some l) :
    (fgCount l = runCount (rowColors pixels y img_width) ∧
      (0 < img_width → 0 < fgCount l)) ∧
    (fgCount (blockContentLine pixels2 bg_color2 screen_width2 img_width2
        padding_w2 y2) = runCount (rowColors pixels2 y2 img_width2) ∧
      (0 < img_width2 → 0 < fgCount (blockContentLine pixels2 bg_color2
        screen_width2 img_width2 padding_w2 y2))) := by
  have hg := fgCount_termContentLine pixels pixels_gray bg_color ascii_palette
    ascii_palette_len screen_width img_width padding_w y l h
  have hb := fgCount_blockContentLine pixels2 bg_color2 screen_width2 img_width2
    padding_w2 y2
  refine ⟨⟨hg, fun hiw => ?_⟩, ⟨hb, fun hiw2 => ?_⟩⟩
  · rw [hg]
    exact runCount_rowColors_pos pixels y img_width hiw
  · rw [hb]
    exact runCount_rowColors_pos pixels2 y2 img_width2 hiw2

theorem claim4_witness :
    (fgCount [Tok.fg 16, Tok.text ".", Tok.text ".", Tok.fg 21, Tok.text ".",
        Tok.reset] = runCount (rowColors (fun x _ => if x < 2 then 0 else 5) 0 3) ∧
      (0 < 3 → 0 < fgCount [Tok.fg 16, Tok.text ".", Tok.text ".", Tok.fg 21,
        Tok.text ".", Tok.reset])) ∧
    (fgCount (blockContentLine (fun _ _ => 0) 0 2 2 0 0) =
        runCount (rowColors (fun _ _ => 0) 0 2) ∧
      (0 < 2 → 0 < fgCount (blockContentLine (fun _ _ => 0) 0 2 2 0 0))) := by
  exact claim4_run_coalescing (fun x _ => if x < 2 then 0 else 5) (fun _ _ => 0) 0
    ['.'] 1 3 3 0 0 [Tok.fg 16, Tok.text ".", Tok.text ".", Tok.fg 21, Tok.text ".",
      Tok.reset] (fun _ _ => 0) 0 2 2 0 0 (by decide)

theorem consumed_pairs (n : Nat) :
    ((List.range n).map (· * 2)).flatMap (fun y => [y, y + 1]) =
      List.range (2 * n) := by
  induction n with
  | zero => rfl
  | succ n ih =>
    rw [List.range_succ, List.map_append, List.flatMap_append, ih]
    have h2 : 2 * (n + 1) = 2 * n + 1 + 1 := by ring
    rw [h2, List.range_succ, List.range_succ, List.append_assoc]
    simp [Nat.mul_comm]

theorem blockContentLine_ext (pixels pixels2 : Nat → Nat → Nat) (bg_color : Nat)
    (screen_width img_width padding_w y : Nat)
    (hy : ∀ x, pixels x y = pixels2 x y)
    (hy1 : ∀ x, pixels x (y + 1) = pixels2 x (y + 1)) :
    blockContentLine pixels bg_color screen_width img_width padding_w y =
      blockContentLine pixels2 bg_color screen_width img_width padding_w y := by
  simp only [blockContentLine,
    blockScan_ext pixels pixels2 y hy hy1 (List.range img_width) none none]

/-- C5: the half-block encoder consumes source rows exactly in the pairs
`(y, y+1)`, `y = 0, 2, 4, …` with `y + 1 < img_height`: the iterated `y`
values are the even numbers below `img_height - 1`, the consumed rows are
exactly `0, …, 2⌊img_height/2⌋ - 1` (each exactly once — all rows when
`img_height` is even), and for odd `img_height` the final source row is
silently ignored: the output is unchanged by any modification of it.  No
error is possible: the encoder is a total function. -/
theorem claim5_row_pairing (img_height0 : Nat) (pixels pixels2 : Nat → Nat → Nat)
    (bg_color : Nat) (screen_width screen_height img_width img_height : Nat)
    (hodd : Odd img_height)
    (hagree : ∀ x y, y < img_height - 1 → pixels x y = pixels2 x y) :
    (rangeStep2 ((img_height0 : Int) - 1) =
      (List.range (img_height0 / 2)).map (· * 2)) ∧
    ((rangeStep2 ((img_height0 : Int) - 1)).flatMap (fun y => [y, y + 1]) =
      List.range (2 * (img_height0 / 2))) ∧
    img_to_term_block_lines pixels bg_color screen_width screen_height img_width
        img_height =
      img_to_term_block_lines pixels2 bg_color screen_width screen_height img_width
        img_height := by
  have hpairs : ∀ m : Nat, rangeStep2 ((m : Int) - 1) =
      (List.range (m / 2)).map (· * 2) := by
    intro m
    rw [rangeStep2]
    have : (((m : Int) - 1 + 1) / 2).toNat = m / 2 := by omega
    rw [this]
  refine ⟨hpairs img_height0, ?_, ?_⟩
  · rw [hpairs img_height0, consumed_pairs]
  · have hcontent :
        (rangeStep2 ((img_height : Int) - 1)).map
          (blockContentLine pixels bg_color screen_width img_width
            ((screen_width - img_width) / 2)) =
        (rangeStep2 ((img_height : Int) - 1)).map
          (blockContentLine pixels2 bg_color screen_width img_width
            ((screen_width - img_width) / 2)) := by
      apply List.map_congr_left
      intro y hy
      rw [hpairs img_height] at hy
      obtain ⟨k, hk, rfl⟩ := List.mem_map.mp hy
      have hklt := List.mem_range.mp hk
      obtain ⟨m, hm⟩ := hodd
      apply blockContentLine_ext
      · intro x
        exact hagree x (k * 2) (by omega)
      · intro x
        exact hagree x (k * 2 + 1) (by omega)
    simp only [img_to_term_block_lines, hcontent]
  
theorem claim5_witness :
    (rangeStep2 ((5 : Int) - 1) = (List.range (5 / 2)).map (· * 2)) ∧
    ((rangeStep2 ((5 : Int) - 1)).flatMap (fun y => [y, y + 1]) =
      List.range (2 * (5 / 2))) ∧
    img_to_term_block_lines (fun _ y => y) 0 2 2 2 3 =
      img_to_term_block_lines (fun _ y => if y < 2 then y else 99) 0 2 2 2 3 := by
  exact claim5_row_pairing 5 (fun _ y => y) (fun _ y => if y < 2 then y else 99) 0
    2 2 2 3 ⟨1, by norm_num⟩
    (fun x y hy => by
      have hy2 : y < 2 := by omega
      simp [hy2])

/-- C7: every output line of both encoders — content and padding alike —
ends with the reset token, whose rendering is the full style-reset sequence
`ESC[0m`, so no color state crosses a line boundary. -/
theorem claim7_reset_terminal (pixels pixels_gray : Nat → Nat → Nat) (bg_color : Nat)
    (ascii_palette : List Char) (ascii_palette_len : Nat)
    (screen_width screen_height img_width img_height : Nat) (ls : List (List Tok))
    (pixels2 : Nat → Nat → Nat) (bg_color2 : Nat)
    (screen_width2 screen_height2 img_width2 img_height2 : Nat)
    (hls : img_to_term_lines pixels pixels_gray bg_color ascii_palette
      ascii_palette_len screen_width screen_height img_width img_height = some ls) :
    (∀ l ∈ ls, l.getLast? = some Tok.reset) ∧
    (∀ l ∈ img_to_term_block_lines pixels2 bg_color2 screen_width2 screen_height2
        img_width2 img_height2,
      l.getLast? = some Tok.reset) ∧
    renderTok Tok.reset = "\x1b[0m" := by
  refine ⟨?_, ?_, rfl⟩
  · intro l hl
    rcases mem_term_lines pixels pixels_gray bg_color ascii_palette ascii_palette_len
        screen_width screen_height img_width img_height ls hls l hl with h | ⟨y, _, hy⟩
    · rw [h]
      rfl
    · obtain ⟨mid, _, hl0⟩ :=
        termContentLine_some pixels pixels_gray bg_color ascii_palette
          ascii_palette_len screen_width img_width ((screen_width - img_width) / 2) y
          l hy
      rw [hl0]
      exact List.getLast?_concat _
  · intro l hl
    rcases mem_block_lines pixels2 bg_color2 screen_width2 screen_height2 img_width2
        img_height2 l hl with h | ⟨y, _, hy⟩
    · rw [h]
      rfl
    · rw [hy]
      simp only [blockContentLine]
      exact List.getLast?_concat _

theorem claim7_witness :
    (∀ l ∈ [[Tok.bg 0, Tok.text (spaces 1), Tok.reset]],
      l.getLast? = some Tok.reset) ∧
    (∀ l ∈ img_to_term_block_lines (fun _ _ => 0) 0 1 1 0 0,
      l.getLast? = some Tok.reset) ∧
    renderTok Tok.reset = "\x1b[0m" := by
  exact claim7_reset_terminal (fun _ _ => 0) (fun _ _ => 0) 0 [] 0 1 1 0 0
    [[Tok.bg 0, Tok.text (spaces 1), Tok.reset]] (fun _ _ => 0) 0 1 1 0 0 (by decide)

/-- C9: for `img_height ≤ 1` the half-block pairing loop runs zero times: no
content row exists, the output is exactly `screen_height` background-filled
padding rows, and no pixel is read (the output is independent of the pixel
buffer). -/
theorem claim9_tiny_height (pixels : Nat → Nat → Nat) (bg_color : Nat)
    (screen_width screen_height img_width img_height : Nat)
    (hih : img_height ≤ 1) :
    img_to_term_block_lines pixels bg_color screen_width screen_height img_width
        img_height = List.replicate screen_height (padRow bg_color screen_width) ∧
    (∀ pixels2 : Nat → Nat → Nat,
      img_to_term_block_lines pixels2 bg_color screen_width screen_height img_width
        img_height =
      img_to_term_block_lines pixels bg_color screen_width screen_height img_width
        img_height) := by
  have hpairs : rangeStep2 ((img_height : Int) - 1) = [] := by
    apply List.eq_nil_of_length_eq_zero
    rw [rangeStep2_pred_length]
    omega
  have key : ∀ p : Nat → Nat → Nat,
      img_to_term_block_lines p bg_color screen_width screen_height img_width
        img_height = List.replicate screen_height (padRow bg_color screen_width) := by
    intro p
    simp only [img_to_term_block_lines, hpairs, List.map_nil, List.append_nil,
      List.length_replicate]
    rw [← List.replicate_add]
    congr 1
    omega
  exact ⟨key pixels, fun pixels2 => by rw [key pixels2, key pixels]⟩

theorem claim9_witness :
    img_to_term_block_lines (fun x y => x + y) 7 3 2 3 1 =
        List.replicate 2 (padRow 7 3) ∧
    (∀ pixels2 : Nat → Nat → Nat,
      img_to_term_block_lines pixels2 7 3 2 3 1 =
      img_to_term_block_lines (fun x y => x + y) 7 3 2 3 1) := by
  exact claim9_tiny_height (fun x y => x + y) 7 3 2 3 1 (by decide)

theorem mem_padRow (b w : Nat) (t : Tok) (h : t ∈ padRow b w) :
    t = Tok.bg b ∨ t = Tok.reset ∨ ∃ s0, t = Tok.text s0 := by
  simp only [padRow] at h
  rcases List.mem_cons.mp h with h0 | h0
  · exact Or.inl h0
  rcases List.mem_cons.mp h0 with h1 | h1
  · exact Or.inr (Or.inr ⟨_, h1⟩)
  rcases List.mem_cons.mp h1 with h2 | h2
  · exact Or.inr (Or.inl h2)
  · exact absurd h2 (List.not_mem_nil t)

theorem mem_pad_fragment (c : Prop) [Decidable c] (b : Nat) (str : String) (t : Tok)
    (h : t ∈ (if c then [Tok.bg b, Tok.text str] else [])) :
    t = Tok.bg b ∨ ∃ s0, t = Tok.text s0 := by
  split at h
  · rcases List.mem_cons.mp h with h0 | h0
    · exact Or.inl h0
    rcases List.mem_cons.mp h0 with h1 | h1
    · exact Or.inr ⟨_, h1⟩
    · exact absurd h1 (List.not_mem_nil t)
  · exact absurd h (List.not_mem_nil t)

/-- C8: every token either encoder emits is a foreground escape, a background
escape, the reset, or visible text; the escapes render exactly as
`ESC[38;5;<code>m` / `ESC[48;5;<code>m` / `ESC[0m` with decimal `<code>`; in
content cells the foreground (and, half-block, background) code is a pixel's
palette index plus 16, and padding background escapes carry the caller's
background code. -/
theorem claim8_escape_forms (pixels pixels_gray : Nat → Nat → Nat) (bg_color : Nat)
    (ascii_palette : List Char) (ascii_palette_len : Nat)
    (screen_width screen_height img_width img_height : Nat) (ls : List (List Tok))
    (pixels2 : Nat → Nat → Nat) (bg_color2 : Nat)
    (screen_width2 screen_height2 img_width2 img_height2 : Nat)
    (hls : img_to_term_lines pixels pixels_gray bg_color ascii_palette
      ascii_palette_len screen_width screen_height img_width img_height = some ls) :
    (∀ c : Nat, renderTok (Tok.fg c) = "\x1b[38;5;" ++ toString c ++ "m") ∧
    (∀ c : Nat, renderTok (Tok.bg c) = "\x1b[48;5;" ++ toString c ++ "m") ∧
    renderTok Tok.reset = "\x1b[0m" ∧
    (∀ l ∈ ls, ∀ t ∈ l,
      (∃ x y, x < img_width ∧ y < img_height ∧ t = Tok.fg (pixels x y + 16)) ∨
        t = Tok.bg bg_color ∨ t = Tok.reset ∨ (∃ s0, t = Tok.text s0)) ∧
    (∀ l ∈ img_to_term_block_lines pixels2 bg_color2 screen_width2 screen_height2
        img_width2 img_height2, ∀ t ∈ l,
      (∃ x y, x < img_width2 ∧ t = Tok.fg (pixels2 x y + 16)) ∨
        (∃ x y, x < img_width2 ∧ t = Tok.bg (pixels2 x y + 16)) ∨
        t = Tok.bg bg_color2 ∨ t = Tok.reset ∨ (∃ s0, t = Tok.text s0)) := by
  refine ⟨fun c => rfl, fun c => rfl, rfl, ?_, ?_⟩
  · intro l hl t ht
    rcases mem_term_lines pixels pixels_gray bg_color ascii_palette ascii_palette_len
        screen_width screen_height img_width img_height ls hls l hl with
      hpad | ⟨y, hylt, hy⟩
    · rw [hpad] at ht
      rcases mem_padRow bg_color screen_width t ht with h0 | h0 | h0
      · exact Or.inr (Or.inl h0)
      · exact Or.inr (Or.inr (Or.inl h0))
      · exact Or.inr (Or.inr (Or.inr h0))
    · obtain ⟨mid, hmid, hl0⟩ :=
        termContentLine_some pixels pixels_gray bg_color ascii_palette
          ascii_palette_len screen_width img_width ((screen_width - img_width) / 2) y
          l hy
      rw [hl0] at ht
      rcases List.mem_append.mp ht with h1 | h1
      · rcases List.mem_append.mp h1 with h2 | h2
        · rcases List.mem_append.mp h2 with h3 | h3
          · rcases mem_pad_fragment _ bg_color _ t h3 with h4 | h4
            · exact Or.inr (Or.inl h4)
            · exact Or.inr (Or.inr (Or.inr h4))
          · rcases mem_termScan pixels pixels_gray ascii_palette ascii_palette_len y
                (List.range img_width) none mid hmid t h3 with ⟨x, hx, h4⟩ | h4
            · exact Or.inl ⟨x, y, List.mem_range.mp hx, hylt, h4⟩
            · exact Or.inr (Or.inr (Or.inr h4))
        · rcases mem_pad_fragment _ bg_color _ t h2 with h4 | h4
          · exact Or.inr (Or.inl h4)
          · exact Or.inr (Or.inr (Or.inr h4))
      · rcases List.mem_cons.mp h1 with h2 | h2
        · exact Or.inr (Or.inr (Or.inl h2))
        · exact absurd h2 (List.not_mem_nil t)
  · intro l hl t ht
    rcases mem_block_lines pixels2 bg_color2 screen_width2 screen_height2 img_width2
        img_height2 l hl with hpad | ⟨y, hymem, hy⟩
    · rw [hpad] at ht
      rcases mem_padRow bg_color2 screen_width2 t ht with h0 | h0 | h0
      · exact Or.inr (Or.inr (Or.inl h0))
      · exact Or.inr (Or.inr (Or.inr (Or.inl h0)))
      · exact Or.inr (Or.inr (Or.inr (Or.inr h0)))
    · rw [hy] at ht
      simp only [blockContentLine] at ht
      rcases List.mem_append.mp ht with h1 | h1
      · rcases List.mem_append.mp h1 with h2 | h2
        · rcases List.mem_append.mp h2 with h3 | h3
          · rcases mem_pad_fragment _ bg_color2 _ t h3 with h4 | h4
            · exact Or.inr (Or.inr (Or.inl h4))
            · exact Or.inr (Or.inr (Or.inr (Or.inr h4)))
          · rcases mem_blockScan pixels2 y (List.range img_width2) none none t h3 with
              ⟨x, hx, h4⟩ | ⟨x, hx, h4⟩ | h4
            · exact Or.inl ⟨x, y, List.mem_range.mp hx, h4⟩
            · exact Or.inr (Or.inl ⟨x, y + 1, List.mem_range.mp hx, h4⟩)
            · exact Or.inr (Or.inr (Or.inr (Or.inr h4)))
        · rcases mem_pad_fragment _ bg_color2 _ t h2 with h4 | h4
          · exact Or.inr (Or.inr (Or.inl h4))
          · exact Or.inr (Or.inr (Or.inr (Or.inr h4)))
      · rcases List.mem_cons.mp h1 with h2 | h2
        · exact Or.inr (Or.inr (Or.inr (Or.inl h2)))
        · exact absurd h2 (List.not_mem_nil t)

theorem claim8_witness :
    (∀ c : Nat, renderTok (Tok.fg c) = "\x1b[38;5;" ++ toString c ++ "m") ∧
    (∀ c : Nat, renderTok (Tok.bg c) = "\x1b[48;5;" ++ toString c ++ "m") ∧
    renderTok Tok.reset = "\x1b[0m" ∧
    (∀ l ∈ [[Tok.bg 5, Tok.text (spaces 2), Tok.reset]], ∀ t ∈ l,
      (∃ x y, x < 0 ∧ y < 0 ∧ t = Tok.fg ((fun _ _ => 0 : Nat → Nat → Nat) x y + 16)) ∨
        t = Tok.bg 5 ∨ t = Tok.reset ∨ (∃ s0, t = Tok.text s0)) ∧
    (∀ l ∈ img_to_term_block_lines (fun _ _ => 1) 6 2 2 1 2, ∀ t ∈ l,
      (∃ x y, x < 1 ∧ t = Tok.fg ((fun _ _ => 1 : Nat → Nat → Nat) x y + 16)) ∨
        (∃ x y, x < 1 ∧ t = Tok.bg ((fun _ _ => 1 : Nat → Nat → Nat) x y + 16)) ∨
        t = Tok.bg 6 ∨ t = Tok.reset ∨ (∃ s0, t = Tok.text s0)) := by
  exact claim8_escape_forms (fun _ _ => 0) (fun _ _ => 0) 5 [] 0 2 1 0 0
    [[Tok.bg 5, Tok.text (spaces 2), Tok.reset]]
    (fun _ _ => 1) 6 2 2 1 2 (by decide)

theorem rangeStep2_pred_eq (m : Nat) :
    rangeStep2 ((m : Int) - 1) = (List.range (m / 2)).map (· * 2) := by
  rw [rangeStep2]
  have h0 : (((m : Int) - 1 + 1) / 2).toNat = m / 2 := by omega
  rw [h0]

theorem takeWhile_visible_prefix (b padding_w c : Nat) (rest : List Tok) :
    visibleLen
      (((if 0 < padding_w then [Tok.bg b, Tok.text (spaces padding_w)] else []) ++
        (Tok.fg c :: rest)).takeWhile (fun t => ! t.isFg)) = padding_w := by
  by_cases hp : 0 < padding_w
  · rw [if_pos hp]
    simp only [List.cons_append, List.nil_append]
    rw [List.takeWhile_cons_of_pos (by rfl), List.takeWhile_cons_of_pos (by rfl),
      List.takeWhile_cons_of_neg (by simp [Tok.isFg])]
    simp [visibleLen, visLen, spaces_length]
  · rw [if_neg hp]
    simp only [List.nil_append]
    rw [List.takeWhile_cons_of_neg (by simp [Tok.isFg])]
    have h0 : visibleLen ([] : List Tok) = 0 := rfl
    rw [h0]
    omega

/-- C6: both encoders compute `padding_w = (screen_width - img_width) // 2`;
the glyph-density encoder computes
`padding_h = (screen_height - img_height) // 2` and the half-block encoder
`padding_h = (screen_height - img_height // 2) // 2`; exactly `padding_h`
background-filled rows precede the first content row (the row at index
`padding_h` is the content row for source row 0), and in a content row
exactly `padding_w` visible background columns precede the first
foreground-colored content cell. -/
theorem claim6_padding (pixels pixels_gray : Nat → Nat → Nat) (bg_color : Nat)
    (ascii_palette : List Char) (ascii_palette_len : Nat)
    (screen_width screen_height img_width img_height : Nat) (ls : List (List Tok))
    (pixels2 : Nat → Nat → Nat) (bg_color2 : Nat)
    (screen_width2 screen_height2 img_width2 img_height2 : Nat)
    (hiw : 0 < img_width) (hih : 0 < img_height)
    (hls : img_to_term_lines pixels pixels_gray bg_color ascii_palette
      ascii_palette_len screen_width screen_height img_width img_height = some ls)
    (hiw2 : 0 < img_width2) (hih2 : 2 ≤ img_height2) :
    (ls.take ((screen_height - img_height) / 2) =
      List.replicate ((screen_height - img_height) / 2)
        (padRow bg_color screen_width)) ∧
    (∃ l0, ls[(screen_height - img_height) / 2]? = some l0 ∧
      termContentLine pixels pixels_gray bg_color ascii_palette ascii_palette_len
        screen_width img_width ((screen_width - img_width) / 2) 0 = some l0 ∧
      visibleLen (l0.takeWhile (fun t => ! t.isFg)) =
        (screen_width - img_width) / 2) ∧
    ((img_to_term_block_lines pixels2 bg_color2 screen_width2 screen_height2
        img_width2 img_height2).take ((screen_height2 - img_height2 / 2) / 2) =
      List.replicate ((screen_height2 - img_height2 / 2) / 2)
        (padRow bg_color2 screen_width2)) ∧
    ((img_to_term_block_lines pixels2 bg_color2 screen_width2 screen_height2
        img_width2 img_height2)[(screen_height2 - img_height2 / 2) / 2]? =
      some (blockContentLine pixels2 bg_color2 screen_width2 img_width2
        ((screen_width2 - img_width2) / 2) 0)) ∧
    (visibleLen ((blockContentLine pixels2 bg_color2 screen_width2 img_width2
        ((screen_width2 - img_width2) / 2) 0).takeWhile (fun t => ! t.isFg)) =
      (screen_width2 - img_width2) / 2) := by
  obtain ⟨content, hmap, hlseq⟩ :=
    img_to_term_lines_some pixels pixels_gray bg_color ascii_palette
      ascii_palette_len screen_width screen_height img_width img_height ls hls
  obtain ⟨k, hk⟩ : ∃ k, img_height = k + 1 := ⟨img_height - 1, by omega⟩
  rw [hk, List.range_succ_eq_map] at hmap
  obtain ⟨c0, crest, hc0, hcrest, hconteq⟩ :=
    mapOption_cons
      (termContentLine pixels pixels_gray bg_color ascii_palette ascii_palette_len
        screen_width img_width ((screen_width - img_width) / 2))
      0 ((List.range k).map Nat.succ) content hmap
  obtain ⟨j, hj⟩ : ∃ j, img_width = j + 1 := ⟨img_width - 1, by omega⟩
  obtain ⟨mid, hmid, hc0eq⟩ :=
    termContentLine_some pixels pixels_gray bg_color ascii_palette ascii_palette_len
      screen_width img_width ((screen_width - img_width) / 2) 0 c0 hc0
  rw [hj, List.range_succ_eq_map] at hmid
  obtain ⟨mrest, hmrest⟩ :=
    termScan_none_head pixels pixels_gray ascii_palette ascii_palette_len 0 0
      ((List.range j).map Nat.succ) mid hmid
  refine ⟨?_, ⟨c0, ?_, hc0, ?_⟩, ?_, ?_, ?_⟩
  · rw [hlseq, List.append_assoc]
    exact List.take_left' (by simp)
  · rw [hlseq, List.append_assoc, List.getElem?_append_right (by simp)]
    simp only [List.length_replicate, Nat.sub_self]
    rw [hconteq]
    simp
  · rw [hc0eq, List.append_assoc, List.append_assoc, hmrest, List.cons_append]
    exact takeWhile_visible_prefix bg_color ((screen_width - img_width) / 2)
      (pixels 0 0 + 16) _
  · have hbeq : img_to_term_block_lines pixels2 bg_color2 screen_width2
        screen_height2 img_width2 img_height2 =
        (List.replicate ((screen_height2 - img_height2 / 2) / 2)
            (padRow bg_color2 screen_width2) ++
          (rangeStep2 ((img_height2 : Int) - 1)).map
            (blockContentLine pixels2 bg_color2 screen_width2 img_width2
              ((screen_width2 - img_width2) / 2))) ++
        List.replicate
          (screen_height2 -
            (List.replicate ((screen_height2 - img_height2 / 2) / 2)
                (padRow bg_color2 screen_width2) ++
              (rangeStep2 ((img_height2 : Int) - 1)).map
                (blockContentLine pixels2 bg_color2 screen_width2 img_width2
                  ((screen_width2 - img_width2) / 2))).length)
          (padRow bg_color2 screen_width2) := rfl
    rw [hbeq, List.append_assoc]
    exact List.take_left' (by simp)
  · have hbeq : img_to_term_block_lines pixels2 bg_color2 screen_width2
        screen_height2 img_width2 img_height2 =
        (List.replicate ((screen_height2 - img_height2 / 2) / 2)
            (padRow bg_color2 screen_width2) ++
          (rangeStep2 ((img_height2 : Int) - 1)).map
            (blockContentLine pixels2 bg_color2 screen_width2 img_width2
              ((screen_width2 - img_width2) / 2))) ++
        List.replicate
          (screen_height2 -
            (List.replicate ((screen_height2 - img_height2 / 2) / 2)
                (padRow bg_color2 screen_width2) ++
              (rangeStep2 ((img_height2 : Int) - 1)).map
                (blockContentLine pixels2 bg_color2 screen_width2 img_width2
                  ((screen_width2 - img_width2) / 2))).length)
          (padRow bg_color2 screen_width2) := rfl
    rw [hbeq, List.append_assoc, List.getElem?_append_right (by simp)]
    simp only [List.length_replicate, Nat.sub_self]
    obtain ⟨k2, hk2⟩ : ∃ k2, img_height2 / 2 = k2 + 1 :=
      ⟨img_height2 / 2 - 1, by omega⟩
    rw [rangeStep2_pred_eq, hk2, List.range_succ_eq_map]
    simp
  · obtain ⟨j2, hj2⟩ : ∃ j2, img_width2 = j2 + 1 := ⟨img_width2 - 1, by omega⟩
    simp only [blockContentLine]
    have hr2 : List.range img_width2 = 0 :: (List.range j2).map Nat.succ := by
      rw [hj2, List.range_succ_eq_map]
    rw [hr2]
    obtain ⟨brest, hbrest⟩ := blockScan_head pixels2 0 0 ((List.range j2).map Nat.succ)
    rw [List.append_assoc, List.append_assoc, hbrest, List.cons_append]
    exact takeWhile_visible_prefix bg_color2 ((screen_width2 - img_width2) / 2)
      (pixels2 0 0 + 16) _

theorem claim6_witness :
    (([[Tok.bg 1, Tok.text (spaces 4), Tok.reset],
        [Tok.bg 1, Tok.text (spaces 1), Tok.fg 16, Tok.text ".", Tok.text ".",
          Tok.bg 1, Tok.text (spaces 1), Tok.reset],
        [Tok.bg 1, Tok.text (spaces 1), Tok.fg 16, Tok.text ".", Tok.text ".",
          Tok.bg 1, Tok.text (spaces 1), Tok.reset],
        [Tok.bg 1, Tok.text (spaces 4), Tok.reset]] : List (List Tok)).take
          ((4 - 2) / 2) =
      List.replicate ((4 - 2) / 2) (padRow 1 4)) ∧
    (∃ l0, ([[Tok.bg 1, Tok.text (spaces 4), Tok.reset],
        [Tok.bg 1, Tok.text (spaces 1), Tok.fg 16, Tok.text ".", Tok.text ".",
          Tok.bg 1, Tok.text (spaces 1), Tok.reset],
        [Tok.bg 1, Tok.text (spaces 1), Tok.fg 16, Tok.text ".", Tok.text ".",
          Tok.bg 1, Tok.text (spaces 1), Tok.reset],
        [Tok.bg 1, Tok.text (spaces 4), Tok.reset]] : List (List Tok))[(4 - 2) / 2]? =
        some l0 ∧
      termContentLine (fun _ _ => 0) (fun _ _ => 0) 1 ['.', ' '] 2 4 2
        ((4 - 2) / 2) 0 = some l0 ∧
      visibleLen (l0.takeWhile (fun t => ! t.isFg)) = (4 - 2) / 2) ∧
    ((img_to_term_block_lines (fun _ _ => 0) 1 4 4 2 2).take ((4 - 2 / 2) / 2) =
      List.replicate ((4 - 2 / 2) / 2) (padRow 1 4)) ∧
    ((img_to_term_block_lines (fun _ _ => 0) 1 4 4 2 2)[(4 - 2 / 2) / 2]? =
      some (blockContentLine (fun _ _ => 0) 1 4 2 ((4 - 2) / 2) 0)) ∧
    (visibleLen ((blockContentLine (fun _ _ => 0) 1 4 2
        ((4 - 2) / 2) 0).takeWhile (fun t => ! t.isFg)) = (4 - 2) / 2) := by
  exact claim6_padding (fun _ _ => 0) (fun _ _ => 0) 1 ['.', ' '] 2 4 4 2 2
    [[Tok.bg 1, Tok.text (spaces 4), Tok.reset],
      [Tok.bg 1, Tok.text (spaces 1), Tok.fg 16, Tok.text ".", Tok.text ".",
        Tok.bg 1, Tok.text (spaces 1), Tok.reset],
      [Tok.bg 1, Tok.text (spaces 1), Tok.fg 16, Tok.text ".", Tok.text ".",
        Tok.bg 1, Tok.text (spaces 1), Tok.reset],
      [Tok.bg 1, Tok.text (spaces 4), Tok.reset]]
    (fun _ _ => 0) 1 4 4 2 2 (by decide) (by decide) (by decide) (by decide)
    (by decide)

